import Mathlib

/-!
Shallow embedding of the dataset-construction pipeline of
`notebooks/synonyms_wordnet.ipynb`:

* `_is_single_word`, `getSyngraph` (the per-category core of
  `get_syngraph_wordset`): the synonym-graph builder over sense clusters,
  with the networkx `Graph` modelled as an association list from node to
  its neighbor list, both kept in insertion order;
* `routeEdges` / `splitOf`: the leak-free splitter (the first loop of
  `create_dataset`), with Python sets of words modelled as duplicate-free
  lists; the threshold comparison `len(train_words) < int(|V|·r)·m` is
  carried out exactly over the rationals, decided by cross-multiplication
  with the weight's positive denominator (`ltThreshold_iff`);
* `emitEdges` / `createDatasetFor` / `create_dataset`: the pair sampler and
  dataset emitter (the second loop of `create_dataset`), with Python's
  global Mersenne-Twister stream abstracted as an oracle `rng : ℕ → ℕ`
  consumed one value per draw, and `random.choices` on an empty population
  modelled as the `IndexError` it raises (`Except.error`);
* `editDist`: the external `editdistance.eval` primitive (standard
  Levenshtein distance).
-/

set_option autoImplicit false

/-- `_is_single_word` from the notebook: a lemma name is kept iff it contains
neither an underscore nor a hyphen. -/
def _is_single_word (w : String) : Bool :=
  decide ('_' ∉ w.data) && decide ('-' ∉ w.data)

/-- `itertools.combinations(l, 2)` in order: all pairs `(l[i], l[j])` with
`i < j`. -/
def combinations2 : List String → List (String × String)
  | [] => []
  | x :: xs => (xs.map fun y => (x, y)) ++ combinations2 xs

/-- A networkx undirected graph over strings: an association list from a node
to its neighbor list; entries are in node-insertion order and each neighbor
list is in adjacency-insertion order, exactly as networkx's dict-of-dicts. -/
abbrev WordGraph := List (String × List String)

/-- First-match association-list lookup (Python dict access). -/
def lookupG : WordGraph → String → Option (List String)
  | [], _ => none
  | (k, l) :: rest, u => if k = u then some l else lookupG rest u

/-- `graph.neighbors(u)`: the adjacency list of `u` (empty if absent). -/
def neighbors (g : WordGraph) (u : String) : List String :=
  (lookupG g u).getD []

/-- `graph.nodes`: the node list in insertion order. -/
def graphNodes (g : WordGraph) : List String :=
  g.map Prod.fst

/-- networkx `add_node`: append a fresh entry unless the node is present. -/
def addNode (g : WordGraph) (u : String) : WordGraph :=
  if (lookupG g u).isSome then g else g ++ [(u, [])]

/-- Record `v` in the adjacency list of `u` (no-op when `v` already there or
`u` absent). -/
def addNbr (g : WordGraph) (u v : String) : WordGraph :=
  g.map fun p => if p.1 = u then (p.1, if v ∈ p.2 then p.2 else p.2 ++ [v]) else p

/-- networkx `add_edge u v`: insert both endpoints as nodes, then record each
in the other's adjacency list (a self-loop yields a single entry). -/
def addEdge (g : WordGraph) (u v : String) : WordGraph :=
  addNbr (addNbr (addNode (addNode g u) v) u v) v u

/-- networkx `add_edges_from`. -/
def addEdges (g : WordGraph) (ps : List (String × String)) : WordGraph :=
  ps.foldl (fun h p => addEdge h p.1 p.2) g

/-- One step of `get_syngraph_wordset`'s inner loop: filter the cluster's
forms through `_is_single_word` and, when more than one form survives, add
the clique over them. -/
def addCluster (g : WordGraph) (cluster : List String) : WordGraph :=
  let ws := cluster.filter _is_single_word
  if 1 < ws.length then addEdges g (combinations2 ws) else g

/-- The per-category body of `get_syngraph_wordset`: build the synonym graph
of a list of sense clusters. -/
def getSyngraph (clusters : List (List String)) : WordGraph :=
  clusters.foldl addCluster []

/-- `get_syngraph_wordset`: apply `getSyngraph` per grammatical category. -/
def get_syngraph_wordset (posClusters : List (String × List (List String))) :
    List (String × WordGraph) :=
  posClusters.map fun p => (p.1, getSyngraph p.2)

/-- networkx `EdgeView.__iter__`: walk entries in node order keeping a `seen`
set of already-processed source nodes; from each entry `(n, nbrs)` yield
`(n, nbr)` for the neighbors not yet seen. -/
def edgesAux : WordGraph → List String → List (String × String)
  | [], _ => []
  | (n, nbrs) :: rest, seen =>
    ((nbrs.filter fun x => decide (x ∉ seen)).map fun x => (n, x))
      ++ edgesAux rest (n :: seen)

/-- `graph.edges` as iterated by `create_dataset`. -/
def graphEdges (g : WordGraph) : List (String × String) :=
  edgesAux g []

/-- Python set insertion on a duplicate-free list. -/
def insertNew (s : List String) (x : String) : List String :=
  if x ∈ s then s else s ++ [x]

/-- `words.update({x, y})` for an edge `(x, y)`. -/
def updWords (s : List String) (e : String × String) : List String :=
  insertNew (insertNew s e.1) e.2

/-- Fold `updWords` over a list of edges. -/
def wordsFold (s : List String) (es : List (String × String)) : List String :=
  es.foldl updWords s

/-- `train_len = int(all_words_len * train_test_component_ratio)`: Python
`int()` truncates the exact value `|V| · ratio = (|V| · ratio.num) / ratio.den`
toward zero, which is the truncating integer division of `|V| · ratio.num`
by `ratio.den`. -/
def train_len (g : WordGraph) (ratio : ℚ) : ℤ :=
  Int.tdiv (((graphNodes g).length : ℤ) * ratio.num) (ratio.den : ℤ)

/-- The splitter's guard `len(train_words) < train_len * weights[pos]`,
decided exactly by cross-multiplication with the weight's positive
denominator: `n < t·m  ↔  n·m.den < t·m.num`
(`ltThreshold_iff` below proves this reading). -/
def ltThreshold (n : ℕ) (t : ℤ) (m : ℚ) : Bool :=
  decide ((n : ℤ) * (m.den : ℤ) < t * m.num)

/-- The first loop of `create_dataset`: route each edge to train while
`len(train_words) < t * m`, otherwise to test, updating that side's word set
with both endpoints.  Returns
`(train_edges, test_edges, train_words, test_words)`. -/
def routeEdges (t : ℤ) (m : ℚ) :
    List (String × String) → List String → List String →
      List (String × String) × List (String × String) × List String × List String
  | [], tw, sw => ([], [], tw, sw)
  | (x, y) :: rest, tw, sw =>
    if ltThreshold tw.length t m then
      let r := routeEdges t m rest (updWords tw (x, y)) sw
      ((x, y) :: r.1, r.2.1, r.2.2.1, r.2.2.2)
    else
      let r := routeEdges t m rest tw (updWords sw (x, y))
      (r.1, (x, y) :: r.2.1, r.2.2.1, r.2.2.2)

/-- The complete split of a graph's edges as computed by `create_dataset`. -/
def splitOf (g : WordGraph) (ratio m : ℚ) :
    List (String × String) × List (String × String) × List String × List String :=
  routeEdges (train_len g ratio) m (graphEdges g) [] []

/-- `train_edges`. -/
def trainEdgesOf (g : WordGraph) (ratio m : ℚ) : List (String × String) :=
  (splitOf g ratio m).1

/-- `test_edges`. -/
def testEdgesOf (g : WordGraph) (ratio m : ℚ) : List (String × String) :=
  (splitOf g ratio m).2.1

/-- `train_words`. -/
def trainWordsOf (g : WordGraph) (ratio m : ℚ) : List String :=
  (splitOf g ratio m).2.2.1

/-- `test_words`. -/
def testWordsOf (g : WordGraph) (ratio m : ℚ) : List String :=
  (splitOf g ratio m).2.2.2

/-- `intersection = train_words.intersection(test_words)`. -/
def interOf (g : WordGraph) (ratio m : ℚ) : List String :=
  (trainWordsOf g ratio m).filter fun w => decide (w ∈ testWordsOf g ratio m)

/-- `train_sampling = train_words.difference(intersection)`. -/
def trainSamplingOf (g : WordGraph) (ratio m : ℚ) : List String :=
  (trainWordsOf g ratio m).filter fun w => decide (w ∉ interOf g ratio m)

/-- `test_sampling = test_words.difference(intersection)`. -/
def testSamplingOf (g : WordGraph) (ratio m : ℚ) : List String :=
  (testWordsOf g ratio m).filter fun w => decide (w ∉ interOf g ratio m)

/-- One inner step of the Levenshtein row recurrence: given the source
character `x`, the remaining target characters, the tail of the previous row
aligned so that its head is the diagonal entry, and the last computed entry
`d` of the current row, produce the rest of the current row. -/
def rowStep (x : Char) : List Char → List ℕ → ℕ → List ℕ
  | [], _, _ => []
  | bj :: bs, prev, d =>
    let p0 := prev.headD 0
    let p1 := prev.tail.headD 0
    let v := min (p1 + 1) (min (d + 1) (p0 + if x = bj then 0 else 1))
    v :: rowStep x bs prev.tail v

/-- Fold the Levenshtein row recurrence over the source characters. -/
def levRows : List Char → List Char → List ℕ → List ℕ
  | [], _, prev => prev
  | x :: xs, bs, prev =>
    let first := prev.headD 0 + 1
    levRows xs bs (first :: rowStep x bs prev first)

/-- `editdistance.eval`: the external lexical-edit-distance primitive,
standard Levenshtein distance via the row-by-row dynamic program. -/
def editDist (s t : String) : ℕ :=
  (levRows s.data t.data (List.range (t.data.length + 1))).getLastD 0

/-- One output row of `create_dataset`: the dict
`{'word1': …, 'word2': …, 'synonym': …, 'pos': …, 'split': …}`. -/
structure PairRecord where
  word1 : String
  word2 : String
  synonym : ℕ
  pos : String
  split : String
deriving DecidableEq

/-- `random.choices(pool, k=k)`: `k` independent draws with replacement, each
indexing the population with the next value of the abstract random stream
(`floor(random() * n)` always lands in `[0, n)`, modelled as `rng i % n`).
With `k ≥ 1` and an empty population, Python raises `IndexError`: `none`. -/
def pyChoices (rng : ℕ → ℕ) (c : ℕ) (pool : List String) (k : ℕ) :
    Option (List String × ℕ) :=
  if k = 0 then some ([], c)
  else if pool.isEmpty then none
  else some (((List.range k).map fun i => pool.getD (rng (c + i) % pool.length) ""), c + k)

/-- The per-edge body of `create_dataset`'s second loop, for the edges `es` of
one split: skip the edge when the edit distance of its endpoints is below 2
or an endpoint lies in `inter`; otherwise sample `k` negatives from `pool`
minus `{w1} ∪ neighbors(w1)` and emit the positive record followed by one
negative record per draw.  An empty candidate pool aborts the whole run
(`random.choices` raises). -/
def emitEdges (g : WordGraph) (posName : String) (k : ℕ) (rng : ℕ → ℕ)
    (inter pool : List String) (split : String) :
    List (String × String) → ℕ → Except Unit (List PairRecord × ℕ)
  | [], c => Except.ok ([], c)
  | (w1, w2) :: rest, c =>
    if editDist w1 w2 < 2 then
      emitEdges g posName k rng inter pool split rest c
    else if w1 ∈ inter ∨ w2 ∈ inter then
      emitEdges g posName k rng inter pool split rest c
    else
      match pyChoices rng c (pool.filter fun w => decide (w ∉ w1 :: neighbors g w1)) k with
      | none => Except.error ()
      | some (negs, c1) =>
        match emitEdges g posName k rng inter pool split rest c1 with
        | Except.error e => Except.error e
        | Except.ok (recs, c2) =>
          Except.ok
            ((⟨w1, w2, 1, posName, split⟩ ::
                negs.map fun w3 => (⟨w1, w3, 0, posName, split⟩ : PairRecord)) ++ recs, c2)

/-- The body of `create_dataset` for one category `(posName, g)` with weight
`m`: split the edges, compute the sampling pools, then emit the train edges
followed by the test edges, threading the random stream position. -/
def createDatasetFor (posName : String) (g : WordGraph) (ratio : ℚ) (k : ℕ)
    (m : ℚ) (rng : ℕ → ℕ) (c : ℕ) : Except Unit (List PairRecord × ℕ) :=
  match emitEdges g posName k rng (interOf g ratio m) (trainSamplingOf g ratio m)
      "train" (trainEdgesOf g ratio m) c with
  | Except.error e => Except.error e
  | Except.ok (r1, c1) =>
    match emitEdges g posName k rng (interOf g ratio m) (testSamplingOf g ratio m)
        "test" (testEdgesOf g ratio m) c1 with
    | Except.error e => Except.error e
    | Except.ok (r2, c2) => Except.ok (r1 ++ r2, c2)

/-- The `weights` dict of `create_dataset` (`1.15` is exactly `23/20`); any
other key raises `KeyError`. -/
def weights (posName : String) : Option ℚ :=
  if posName = "verb" then some (23 / 20)
  else if posName = "adjective" then some 1
  else if posName = "noun" then some 1
  else none

/-- `create_dataset` over its category dictionary, threading the random
stream; a failing category (or a `KeyError` on `weights`) aborts the run. -/
def createDatasetAll :
    List (String × WordGraph) → ℚ → ℕ → (ℕ → ℕ) → ℕ →
      Except Unit (List PairRecord × ℕ)
  | [], _, _, _, c => Except.ok ([], c)
  | (p, g) :: rest, ratio, k, rng, c =>
    match weights p with
    | none => Except.error ()
    | some m =>
      match createDatasetFor p g ratio k m rng c with
      | Except.error e => Except.error e
      | Except.ok (r1, c1) =>
        match createDatasetAll rest ratio k rng c1 with
        | Except.error e => Except.error e
        | Except.ok (r2, c2) => Except.ok (r1 ++ r2, c2)

/-- `list(create_dataset(...))`: the consumed record sequence of a run, or the
fault that aborted it. -/
def create_dataset (graphs : List (String × WordGraph)) (ratio : ℚ) (k : ℕ)
    (rng : ℕ → ℕ) : Except Unit (List PairRecord) :=
  (createDatasetAll graphs ratio k rng 0).map Prod.fst

/-! ### Concrete inputs used by the claim theorems -/

/-- The end-to-end example input: one category with sense clusters
`{change, alter, modify}` and `{change, transform}`. -/
def gC2 : WordGraph :=
  getSyngraph [["change", "alter", "modify"], ["change", "transform"]]

/-- A five-vertex, three-edge graph separating the two threshold formulas. -/
def gC3 : WordGraph :=
  getSyngraph [["a", "b"], ["c", "d"], ["c", "e"]]

/-- Two clusters whose cross-cluster words include an inflectional variant
(`runs` is not a graph-neighbor of `run`). -/
def gC10 : WordGraph :=
  getSyngraph [["run", "walk"], ["runs", "stroll"]]

/-- A two-cluster input on which the sampler succeeds: every edge has a
non-empty candidate pool. -/
def gW : WordGraph :=
  getSyngraph [["ab", "cd"], ["ef", "gh"]]

/-- The record sequence `createDatasetFor` emits on `gW` with ratio 1,
`k = 1`, weight 1 and the all-zero random stream. -/
def outW : List PairRecord :=
  [⟨"ab", "cd", 1, "noun", "train"⟩, ⟨"ab", "ef", 0, "noun", "train"⟩,
   ⟨"ef", "gh", 1, "noun", "train"⟩, ⟨"ef", "ab", 0, "noun", "train"⟩]

/-- The train fraction `0.5` of the C3 counterexample as a literal rational
(`1/2` written in normal form so that its projections evaluate). -/
def ratioHalf : ℚ := ⟨1, 2, by decide, by decide⟩

/-! ### Sanity checks of the embedding on known values -/

example : editDist "run" "runs" = 1 := by decide
example : editDist "ab" "cd" = 2 := by decide
example : editDist "kitten" "sitting" = 3 := by decide
example : editDist "flaw" "lawn" = 2 := by decide
example : editDist "change" "transform" = 7 := by decide
example : editDist "" "abc" = 3 := by decide
example : editDist "abc" "" = 3 := by decide
example : editDist "abc" "abc" = 0 := by decide
example :
    graphEdges (getSyngraph [["a", "b", "c"]]) = [("a", "b"), ("a", "c"), ("b", "c")] := by
  decide

theorem ratioHalf_eq : ratioHalf = 1 / 2 := by
  rw [ratioHalf, Rat.mk'_eq_divInt, Rat.divInt_eq_div]
  norm_num

example : createDatasetFor "noun" gW 1 1 1 (fun _ => 0) 0 = Except.ok (outW, 2) := rfl

/-! ### The guard of the splitter, read back as the source's comparison -/

/-- `ltThreshold n t m` decides exactly `n < t·m` over `ℚ`. -/
theorem ltThreshold_iff (n : ℕ) (t : ℤ) (m : ℚ) :
    ltThreshold n t m = true ↔ (n : ℚ) < (t : ℚ) * m := by
  rw [ltThreshold, decide_eq_true_eq]
  have hden : (0 : ℚ) < (m.den : ℚ) := by exact_mod_cast m.pos
  have hden0 : ((m.den : ℚ)) ≠ 0 := ne_of_gt hden
  have hmd : m * (m.den : ℚ) = (m.num : ℚ) := by
    nth_rewrite 1 [← Rat.num_div_den m]
    exact div_mul_cancel₀ _ hden0
  rw [show ((n : ℚ) < (t : ℚ) * m ↔ (n : ℚ) * (m.den : ℚ) < (t : ℚ) * m * (m.den : ℚ))
      from (mul_lt_mul_right hden).symm, mul_assoc, hmd]
  constructor
  · intro h
    exact_mod_cast h
  · intro h
    exact_mod_cast h

/-! ### Claim C1 -/

/-- Claim C1 (the code contradicts it): on the single cluster `{ab, cd}` the
only edge `(ab, cd)` passes the edit-distance and intersection filters, but
its candidate negative pool is empty, and `random.choices` on the empty pool
raises an unhandled `IndexError` that aborts the whole run — no records are
produced and no later edge is processed — whatever the random stream. -/
theorem C1_empty_pool_aborts_run (rng : ℕ → ℕ) :
    create_dataset [("noun", getSyngraph [["ab", "cd"]])] 1 1 rng = Except.error () :=
  rfl

/-! ### Claim C2 -/

/-- Claim C2 counterexample: on the end-to-end example input with train
fraction 1, the splitter does not route all four edges to train — the edge
`(alter, modify)` is routed to test — and the emitted output does not contain
4 positive and 4 negative records: the run aborts with an unhandled
empty-pool fault, emitting nothing. -/
theorem C2_counterexample :
    testEdgesOf gC2 1 1 = [("alter", "modify")] ∧
    createDatasetFor "noun" gC2 1 1 1 (fun _ => 0) 0 = Except.error () :=
  ⟨rfl, rfl⟩

/-- Claim C2 (amended): the built graph has exactly the claimed vertices and
edges; but the edges are iterated grouped by source node, so with train
fraction 1 the first three edges go to train (after which `train_words`
already holds all four vertices) and `(alter, modify)` goes to test; the
intersection is `{alter, modify}`, which makes the first two train edges
skipped by the leakage guard and leaves the edge `(change, transform)` with
an empty candidate pool, on which the sampler raises an unhandled fault —
for every random stream the run emits no records at all. -/
theorem C2_end_to_end (rng : ℕ → ℕ) :
    graphNodes gC2 = ["change", "alter", "modify", "transform"] ∧
    graphEdges gC2 =
      [("change", "alter"), ("change", "modify"), ("change", "transform"),
        ("alter", "modify")] ∧
    trainEdgesOf gC2 1 1 =
      [("change", "alter"), ("change", "modify"), ("change", "transform")] ∧
    testEdgesOf gC2 1 1 = [("alter", "modify")] ∧
    interOf gC2 1 1 = ["alter", "modify"] ∧
    createDatasetFor "noun" gC2 1 1 1 rng 0 = Except.error () :=
  ⟨rfl, rfl, rfl, rfl, rfl, rfl⟩

/-! ### Claim C3, counterexample part -/

/-- Claim C3 counterexample: on `gC3` (5 vertices) with `r = 1/2` and
`m = 1`, the second edge `(c, d)` is processed while `train_words` has 2
members and `2 < r·m·|V| = 5/2`, so the claimed threshold routes it to
train; the code compares against `int(|V|·r)·m = 2` instead and routes it
(and everything after) to test. -/
theorem C3_counterexample :
    ((2 : ℚ) < (1 / 2 : ℚ) * 1 * ((graphNodes gC3).length : ℚ)) ∧
    (graphEdges gC3).take 2 = [("a", "b"), ("c", "d")] ∧
    wordsFold [] [("a", "b")] = ["a", "b"] ∧
    trainEdgesOf gC3 (1 / 2) 1 = [("a", "b")] ∧
    testEdgesOf gC3 (1 / 2) 1 = [("c", "d"), ("c", "e")] := by
  rw [← ratioHalf_eq]
  refine ⟨?_, rfl, rfl, rfl, rfl⟩
  rw [ratioHalf_eq]
  have h : graphNodes gC3 = ["a", "b", "c", "d", "e"] := rfl
  rw [h]
  norm_num

/-! ### Claim C5, counterexample part -/

/-- Claim C5 counterexample: the builder is not self-loop-free on every
input cluster list — a cluster that repeats a form, here `["a", "a"]`, makes
`combinations` produce the pair `(a, a)` and networkx records it as a
self-loop. -/
theorem C5_counterexample :
    "a" ∈ neighbors (getSyngraph [["a", "a"]]) "a" := by decide

/-! ### Claim C10 -/

/-- Claim C10: the edit-distance filter is applied only to the positive pair,
never to sampled negatives: on `gC10` with the zero random stream the run
succeeds and emits the label-0 record `(run, runs)` whose words are at edit
distance 1 < 2. -/
theorem C10_negative_skips_distance_filter :
    createDatasetFor "noun" gC10 1 1 1 (fun _ => 0) 0 =
      Except.ok
        ([⟨"run", "walk", 1, "noun", "train"⟩, ⟨"run", "runs", 0, "noun", "train"⟩,
          ⟨"runs", "stroll", 1, "noun", "train"⟩, ⟨"runs", "run", 0, "noun", "train"⟩], 2) ∧
    (⟨"run", "runs", 0, "noun", "train"⟩ : PairRecord).synonym = 0 ∧
    editDist "run" "runs" < 2 :=
  ⟨rfl, rfl, by decide⟩

/-! ### Helper lemmas on the set and sampling primitives -/

theorem mem_insertNew {s : List String} {x y : String} :
    y ∈ insertNew s x ↔ y ∈ s ∨ y = x := by
  by_cases h : x ∈ s
  · rw [insertNew, if_pos h]
    constructor
    · exact Or.inl
    · rintro (hy | rfl) <;> assumption
  · rw [insertNew, if_neg h, List.mem_append, List.mem_singleton]

theorem getD_mem {l : List String} {i : ℕ} (h : i < l.length) (d : String) :
    l.getD i d ∈ l := by
  induction l generalizing i with
  | nil => simp at h
  | cons a t ih =>
    cases i with
    | zero => simp
    | succ n =>
      simp only [List.getD_cons_succ]
      exact List.mem_cons_of_mem _ (ih (by simpa using h))

theorem pyChoices_mem {rng : ℕ → ℕ} {c : ℕ} {pool : List String} {k : ℕ}
    {l : List String} {c' : ℕ} (h : pyChoices rng c pool k = some (l, c')) :
    ∀ x ∈ l, x ∈ pool := by
  intro x hx
  rw [pyChoices] at h
  by_cases hk : k = 0
  · rw [if_pos hk] at h
    cases h
    simp at hx
  · rw [if_neg hk] at h
    by_cases he : pool.isEmpty
    · rw [if_pos he] at h
      exact Option.noConfusion h
    · rw [if_neg he] at h
      cases h
      simp only [List.mem_map, List.mem_range] at hx
      obtain ⟨i, _, rfl⟩ := hx
      have hlen : 0 < pool.length := by
        cases pool with
        | nil => simp at he
        | cons a t => simp
      exact getD_mem (Nat.mod_lt _ hlen) _

/-! ### Soundness of the emitted records -/

/-- Every record emitted by `emitEdges` carries the category and split it was
emitted in; a label-1 record is an edge that passed the edit-distance filter
(distance at least 2) and the leakage guard (neither word in `inter`); a
label-0 record has its first word from a guarded edge and its second word
drawn from `pool` minus `{word1} ∪ neighbors(word1)`. -/
theorem emitEdges_sound (g : WordGraph) (posName : String) (k : ℕ) (rng : ℕ → ℕ)
    (inter pool : List String) (split : String) :
    ∀ (es : List (String × String)) (c : ℕ) (recs : List PairRecord) (c' : ℕ),
      emitEdges g posName k rng inter pool split es c = Except.ok (recs, c') →
      ∀ rec ∈ recs,
        rec.pos = posName ∧ rec.split = split ∧
        ((rec.synonym = 1 ∧ 2 ≤ editDist rec.word1 rec.word2 ∧
            rec.word1 ∉ inter ∧ rec.word2 ∉ inter) ∨
          (rec.synonym = 0 ∧ rec.word1 ∉ inter ∧ rec.word2 ∈ pool ∧
            rec.word2 ≠ rec.word1 ∧ rec.word2 ∉ neighbors g rec.word1)) := by
  intro es
  induction es with
  | nil =>
    intro c recs c' h rec hrec
    rw [emitEdges] at h
    cases h
    simp at hrec
  | cons e rest ih =>
    obtain ⟨w1, w2⟩ := e
    intro c recs c' h rec hrec
    rw [emitEdges] at h
    split at h
    · exact ih c recs c' h rec hrec
    · split at h
      · exact ih c recs c' h rec hrec
      · next h1 h2 =>
        push_neg at h2
        split at h
        · exact Except.noConfusion h
        · next negs c1 hch =>
          split at h
          · exact Except.noConfusion h
          · next recs0 c2 hrest =>
            injection h with h
            injection h with hrecs hc
            subst hrecs
            rw [List.mem_append, List.mem_cons] at hrec
            rcases hrec with (rfl | hmap) | h0
            · exact ⟨rfl, rfl, Or.inl ⟨rfl, Nat.le_of_not_lt h1, h2.1, h2.2⟩⟩
            · simp only [List.mem_map] at hmap
              obtain ⟨w3, hw3, rfl⟩ := hmap
              have hpool := pyChoices_mem hch w3 hw3
              rw [List.mem_filter, decide_eq_true_eq, List.mem_cons] at hpool
              push_neg at hpool
              exact ⟨rfl, rfl, Or.inr ⟨rfl, h2.1, hpool.1, hpool.2.1, hpool.2.2⟩⟩
            · exact ih c1 recs0 c2 hrest rec h0

/-- Destructor for a successful `createDatasetFor` run: the train pass and the
test pass both succeeded and the output is their concatenation. -/
theorem createDatasetFor_ok {posName : String} {g : WordGraph} {ratio : ℚ} {k : ℕ}
    {m : ℚ} {rng : ℕ → ℕ} {c : ℕ} {out : List PairRecord × ℕ}
    (h : createDatasetFor posName g ratio k m rng c = Except.ok out) :
    ∃ r1 c1 r2 c2,
      emitEdges g posName k rng (interOf g ratio m) (trainSamplingOf g ratio m) "train"
          (trainEdgesOf g ratio m) c = Except.ok (r1, c1) ∧
      emitEdges g posName k rng (interOf g ratio m) (testSamplingOf g ratio m) "test"
          (testEdgesOf g ratio m) c1 = Except.ok (r2, c2) ∧
      out.1 = r1 ++ r2 := by
  rw [createDatasetFor] at h
  split at h
  · exact Except.noConfusion h
  · next r1 c1 h1 =>
    split at h
    · exact Except.noConfusion h
    · next r2 c2 h2 =>
      injection h with h
      exact ⟨r1, c1, r2, c2, h1, h2, by rw [← h]⟩

theorem mem_trainSampling {g : WordGraph} {ratio m : ℚ} {x : String}
    (hx : x ∈ trainSamplingOf g ratio m) :
    x ∈ trainWordsOf g ratio m ∧ x ∉ interOf g ratio m ∧ x ∉ testWordsOf g ratio m := by
  rw [trainSamplingOf, List.mem_filter, decide_eq_true_eq] at hx
  refine ⟨hx.1, hx.2, fun hsw => hx.2 ?_⟩
  rw [interOf, List.mem_filter, decide_eq_true_eq]
  exact ⟨hx.1, hsw⟩

theorem mem_testSampling {g : WordGraph} {ratio m : ℚ} {x : String}
    (hx : x ∈ testSamplingOf g ratio m) :
    x ∈ testWordsOf g ratio m ∧ x ∉ interOf g ratio m ∧ x ∉ trainWordsOf g ratio m := by
  rw [testSamplingOf, List.mem_filter, decide_eq_true_eq] at hx
  refine ⟨hx.1, hx.2, fun htw => hx.2 ?_⟩
  rw [interOf, List.mem_filter, decide_eq_true_eq]
  exact ⟨htw, hx.1⟩

/-- Auxiliary for claim C6: `emitEdges` never looks at an edge whose
endpoints are at edit distance below 2 — pre-filtering those edges away
changes nothing, including the positions consumed from the random stream. -/
theorem emitEdges_filter_short (g : WordGraph) (posName : String) (k : ℕ)
    (rng : ℕ → ℕ) (inter pool : List String) (split : String) :
    ∀ (es : List (String × String)) (c : ℕ),
      emitEdges g posName k rng inter pool split es c =
        emitEdges g posName k rng inter pool split
          (es.filter fun e => decide (2 ≤ editDist e.1 e.2)) c := by
  intro es
  induction es with
  | nil => intro c; rfl
  | cons e rest ih =>
    obtain ⟨w1, w2⟩ := e
    intro c
    by_cases h1 : editDist w1 w2 < 2
    · have hd : (decide (2 ≤ editDist ((w1, w2) : String × String).1 (w1, w2).2)) = false := by
        simp only [decide_eq_false_iff_not, Nat.not_le]
        exact h1
      rw [List.filter_cons, hd]
      simp only [Bool.false_eq_true, if_false]
      rw [emitEdges, if_pos h1]
      exact ih c
    · have hd : (decide (2 ≤ editDist ((w1, w2) : String × String).1 (w1, w2).2)) = true := by
        simp only [decide_eq_true_eq]
        exact Nat.le_of_not_lt h1
      rw [List.filter_cons, hd]
      simp only [if_true]
      rw [emitEdges, emitEdges, if_neg h1, if_neg h1]
      by_cases h2 : w1 ∈ inter ∨ w2 ∈ inter
      · rw [if_pos h2, if_pos h2]
        exact ih c
      · rw [if_neg h2, if_neg h2]
        simp only [ih]

/-! ### Claim C4 -/

/-- Claim C4: every emitted record — label 1 or 0, train or test — has
neither of its two words in `intersection = train_words ∩ test_words`. -/
theorem C4_no_intersection_leakage (posName : String) (g : WordGraph)
    (ratio : ℚ) (k : ℕ) (m : ℚ) (rng : ℕ → ℕ) (c : ℕ) (out : List PairRecord × ℕ)
    (hok : createDatasetFor posName g ratio k m rng c = Except.ok out)
    (rec : PairRecord) (hrec : rec ∈ out.1) :
    rec.word1 ∉ interOf g ratio m ∧ rec.word2 ∉ interOf g ratio m := by
  obtain ⟨r1, c1, r2, c2, h1, h2, hout⟩ := createDatasetFor_ok hok
  rw [hout, List.mem_append] at hrec
  rcases hrec with hr | hr
  · rcases (emitEdges_sound g posName k rng _ _ _ _ _ _ _ h1 rec hr).2.2 with hp | hn
    · exact ⟨hp.2.2.1, hp.2.2.2⟩
    · exact ⟨hn.2.1, (mem_trainSampling hn.2.2.1).2.1⟩
  · rcases (emitEdges_sound g posName k rng _ _ _ _ _ _ _ h2 rec hr).2.2 with hp | hn
    · exact ⟨hp.2.2.1, hp.2.2.2⟩
    · exact ⟨hn.2.1, (mem_testSampling hn.2.2.1).2.1⟩

/-- Witness for claim C4 on a concrete successful run. -/
theorem C4_witness :
    ("ab" : String) ∉ interOf gW 1 1 ∧ ("ef" : String) ∉ interOf gW 1 1 :=
  C4_no_intersection_leakage "noun" gW 1 1 1 (fun _ => 0) 0 (outW, 2) rfl
    ⟨"ab", "ef", 0, "noun", "train"⟩ (by decide)

/-! ### Claim C6 -/

/-- Claim C6: no emitted label-1 record is at edit distance below 2, and an
edge whose endpoints are closer than 2 contributes no records at all —
filtering such edges out of any emission pass leaves the pass unchanged. -/
theorem C6_edit_distance_filter (posName : String) (g : WordGraph)
    (ratio : ℚ) (k : ℕ) (m : ℚ) (rng : ℕ → ℕ) (c : ℕ) (out : List PairRecord × ℕ)
    (hok : createDatasetFor posName g ratio k m rng c = Except.ok out)
    (rec : PairRecord) (hrec : rec ∈ out.1) (hpos : rec.synonym = 1) :
    2 ≤ editDist rec.word1 rec.word2 ∧
    ∀ (inter pool : List String) (split : String) (es : List (String × String)) (c0 : ℕ),
      emitEdges g posName k rng inter pool split es c0 =
        emitEdges g posName k rng inter pool split
          (es.filter fun e => decide (2 ≤ editDist e.1 e.2)) c0 := by
  refine ⟨?_, fun inter pool split => emitEdges_filter_short g posName k rng inter pool split⟩
  obtain ⟨r1, c1, r2, c2, h1, h2, hout⟩ := createDatasetFor_ok hok
  rw [hout, List.mem_append] at hrec
  rcases hrec with hr | hr
  · rcases (emitEdges_sound g posName k rng _ _ _ _ _ _ _ h1 rec hr).2.2 with hp | hn
    · exact hp.2.1
    · exact absurd (hpos ▸ hn.1) (by decide)
  · rcases (emitEdges_sound g posName k rng _ _ _ _ _ _ _ h2 rec hr).2.2 with hp | hn
    · exact hp.2.1
    · exact absurd (hpos ▸ hn.1) (by decide)

/-- Witness for claim C6 on a concrete successful run. -/
theorem C6_witness :
    2 ≤ editDist "ab" "cd" ∧
    emitEdges gW "noun" 1 (fun _ => 0) [] ["ef"] "train" [("ab", "cd"), ("x", "xx")] 0 =
      emitEdges gW "noun" 1 (fun _ => 0) [] ["ef"] "train"
        ([("ab", "cd"), ("x", "xx")].filter fun e => decide (2 ≤ editDist e.1 e.2)) 0 := by
  have h := C6_edit_distance_filter "noun" gW 1 1 1 (fun _ => 0) 0 (outW, 2) rfl
      ⟨"ab", "cd", 1, "noun", "train"⟩ (by decide) rfl
  exact ⟨h.1, h.2 [] ["ef"] "train" [("ab", "cd"), ("x", "xx")] 0⟩

/-! ### Claim C7 -/

/-- Claim C7: every emitted label-0 record `(w1, w3)` has `w3 ≠ w1` and `w3`
not a graph-neighbor of `w1`. -/
theorem C7_negative_disjointness (posName : String) (g : WordGraph)
    (ratio : ℚ) (k : ℕ) (m : ℚ) (rng : ℕ → ℕ) (c : ℕ) (out : List PairRecord × ℕ)
    (hok : createDatasetFor posName g ratio k m rng c = Except.ok out)
    (rec : PairRecord) (hrec : rec ∈ out.1) (hneg : rec.synonym = 0) :
    rec.word2 ≠ rec.word1 ∧ rec.word2 ∉ neighbors g rec.word1 := by
  obtain ⟨r1, c1, r2, c2, h1, h2, hout⟩ := createDatasetFor_ok hok
  rw [hout, List.mem_append] at hrec
  rcases hrec with hr | hr
  · rcases (emitEdges_sound g posName k rng _ _ _ _ _ _ _ h1 rec hr).2.2 with hp | hn
    · exact absurd (hneg ▸ hp.1) (by decide)
    · exact ⟨hn.2.2.2.1, hn.2.2.2.2⟩
  · rcases (emitEdges_sound g posName k rng _ _ _ _ _ _ _ h2 rec hr).2.2 with hp | hn
    · exact absurd (hneg ▸ hp.1) (by decide)
    · exact ⟨hn.2.2.2.1, hn.2.2.2.2⟩

/-- Witness for claim C7 on a concrete successful run. -/
theorem C7_witness :
    ("ef" : String) ≠ "ab" ∧ ("ef" : String) ∉ neighbors gW "ab" :=
  C7_negative_disjointness "noun" gW 1 1 1 (fun _ => 0) 0 (outW, 2) rfl
    ⟨"ab", "ef", 0, "noun", "train"⟩ (by decide) rfl

/-! ### Claim C9 -/

/-- Claim C9: a label-0 record of the train split draws its second word from
`train_words` and never from `test_words`; symmetrically for test. -/
theorem C9_negatives_from_own_split (posName : String) (g : WordGraph)
    (ratio : ℚ) (k : ℕ) (m : ℚ) (rng : ℕ → ℕ) (c : ℕ) (out : List PairRecord × ℕ)
    (hok : createDatasetFor posName g ratio k m rng c = Except.ok out)
    (rec : PairRecord) (hrec : rec ∈ out.1) (hneg : rec.synonym = 0) :
    (rec.split = "train" →
      rec.word2 ∈ trainWordsOf g ratio m ∧ rec.word2 ∉ testWordsOf g ratio m) ∧
    (rec.split = "test" →
      rec.word2 ∈ testWordsOf g ratio m ∧ rec.word2 ∉ trainWordsOf g ratio m) := by
  obtain ⟨r1, c1, r2, c2, h1, h2, hout⟩ := createDatasetFor_ok hok
  rw [hout, List.mem_append] at hrec
  rcases hrec with hr | hr
  · have hs := emitEdges_sound g posName k rng _ _ _ _ _ _ _ h1 rec hr
    rcases hs.2.2 with hp | hn
    · exact absurd (hneg ▸ hp.1) (by decide)
    · have hm := mem_trainSampling hn.2.2.1
      refine ⟨fun _ => ⟨hm.1, hm.2.2⟩, fun hts => ?_⟩
      rw [hs.2.1] at hts
      exact absurd hts (by decide)
  · have hs := emitEdges_sound g posName k rng _ _ _ _ _ _ _ h2 rec hr
    rcases hs.2.2 with hp | hn
    · exact absurd (hneg ▸ hp.1) (by decide)
    · have hm := mem_testSampling hn.2.2.1
      refine ⟨fun hts => ?_, fun _ => ⟨hm.1, hm.2.2⟩⟩
      rw [hs.2.1] at hts
      exact absurd hts (by decide)

/-- Witness for claim C9 on a concrete successful run. -/
theorem C9_witness :
    ("ef" : String) ∈ trainWordsOf gW 1 1 ∧ ("ef" : String) ∉ testWordsOf gW 1 1 :=
  (C9_negatives_from_own_split "noun" gW 1 1 1 (fun _ => 0) 0 (outW, 2) rfl
    ⟨"ab", "ef", 0, "noun", "train"⟩ (by decide) rfl).1 rfl

/-! ### Characterization of the splitter -/

/-- Once the threshold test fails, `train_words` is never touched again, so
every remaining edge lands in test. -/
theorem routeEdges_stop (t : ℤ) (m : ℚ) :
    ∀ (es : List (String × String)) (tw sw : List String),
      ¬ ltThreshold tw.length t m = true →
      routeEdges t m es tw sw = ([], es, tw, wordsFold sw es) := by
  intro es
  induction es with
  | nil => intro tw sw _; rfl
  | cons e rest ih =>
    obtain ⟨x, y⟩ := e
    intro tw sw h
    rw [routeEdges, if_neg h, ih tw (updWords sw (x, y)) h]
    rfl

/-- The splitter is a single forward pass with one monotone threshold
crossing: some prefix of the edges goes to train, the rest to test, the word
sets are the endpoint folds of the two parts, the threshold test succeeds
before every train edge and fails at the crossing point. -/
theorem routeEdges_spec (t : ℤ) (m : ℚ) :
    ∀ (es : List (String × String)) (tw sw : List String),
      ∃ j, j ≤ es.length ∧
        routeEdges t m es tw sw =
          (es.take j, es.drop j, wordsFold tw (es.take j), wordsFold sw (es.drop j)) ∧
        (∀ i, i < j → ltThreshold (wordsFold tw (es.take i)).length t m = true) ∧
        (j < es.length → ¬ ltThreshold (wordsFold tw (es.take j)).length t m = true) := by
  intro es
  induction es with
  | nil =>
    intro tw sw
    exact ⟨0, Nat.le_refl 0, rfl, fun i hi => absurd hi (Nat.not_lt_zero i),
      fun h => absurd h (Nat.lt_irrefl 0)⟩
  | cons e rest ih =>
    obtain ⟨x, y⟩ := e
    intro tw sw
    by_cases h : ltThreshold tw.length t m = true
    · obtain ⟨j, hj, heq, hcond, hcross⟩ := ih (updWords tw (x, y)) sw
      refine ⟨j + 1, Nat.succ_le_succ hj, ?_, ?_, ?_⟩
      · rw [routeEdges, if_pos h, heq]
        rfl
      · intro i hi
        cases i with
        | zero => exact h
        | succ i' => exact hcond i' (Nat.lt_of_succ_lt_succ hi)
      · intro hlt
        exact hcross (Nat.lt_of_succ_lt_succ hlt)
    · refine ⟨0, Nat.zero_le _, ?_, fun i hi => absurd hi (Nat.not_lt_zero i), fun _ => h⟩
      rw [routeEdges_stop t m ((x, y) :: rest) tw sw h]
      rfl

/-! ### Claim C3, amended part -/

/-- Claim C3 (amended): the splitter's single pass routes a prefix of the
edge list to train and the rest to test; an edge is routed to train exactly
while `|train_words| < int(r·|V|)·m` — the train fraction is applied to the
vertex count and truncated to an integer by `int()` *before* the weight
multiplies it (`train_len g r = int(r·|V|)`), not `r·m·|V|` as claimed —
and both endpoints of each routed edge are added to that side's word set. -/
theorem C3_threshold_floor (g : WordGraph) (ratio m : ℚ) :
    ∃ j, j ≤ (graphEdges g).length ∧
      trainEdgesOf g ratio m = (graphEdges g).take j ∧
      testEdgesOf g ratio m = (graphEdges g).drop j ∧
      trainWordsOf g ratio m = wordsFold [] ((graphEdges g).take j) ∧
      testWordsOf g ratio m = wordsFold [] ((graphEdges g).drop j) ∧
      (∀ i, i < j →
        ((wordsFold [] ((graphEdges g).take i)).length : ℚ) < (train_len g ratio : ℚ) * m) ∧
      (j < (graphEdges g).length →
        ¬ ((wordsFold [] ((graphEdges g).take j)).length : ℚ) < (train_len g ratio : ℚ) * m) := by
  obtain ⟨j, hj, heq, hcond, hcross⟩ := routeEdges_spec (train_len g ratio) m (graphEdges g) [] []
  refine ⟨j, hj, ?_, ?_, ?_, ?_, ?_, ?_⟩
  · rw [trainEdgesOf, splitOf, heq]
  · rw [testEdgesOf, splitOf, heq]
  · rw [trainWordsOf, splitOf, heq]
  · rw [testWordsOf, splitOf, heq]
  · intro i hi
    exact (ltThreshold_iff _ _ _).mp (hcond i hi)
  · intro hlt hq
    exact hcross hlt ((ltThreshold_iff _ _ _).mpr hq)

/-! ### Structural invariants of built graphs -/

theorem lookupG_eq_none {g : WordGraph} {u : String} :
    lookupG g u = none ↔ u ∉ graphNodes g := by
  induction g with
  | nil => simp [lookupG, graphNodes]
  | cons p rest ih =>
    obtain ⟨k, l⟩ := p
    by_cases h : k = u
    · subst h
      simp [lookupG, graphNodes]
    · simp [lookupG, graphNodes, h, ih, Ne.symm h]

theorem lookupG_mem {g : WordGraph} {u : String} {l : List String}
    (h : lookupG g u = some l) : (u, l) ∈ g := by
  induction g with
  | nil => exact Option.noConfusion h
  | cons p rest ih =>
    obtain ⟨k, l'⟩ := p
    rw [lookupG] at h
    split at h
    · next hk =>
      injection h with h
      subst hk
      subst h
      exact List.mem_cons_self _ _
    · exact List.mem_cons_of_mem _ (ih h)

theorem graphNodes_addNbr (g : WordGraph) (u v : String) :
    graphNodes (addNbr g u v) = graphNodes g := by
  rw [addNbr, graphNodes, List.map_map, graphNodes]
  congr 1
  funext p
  by_cases h : p.1 = u <;> simp [Function.comp, h]

theorem nodes_nodup_addNode {g : WordGraph} (h : (graphNodes g).Nodup) (u : String) :
    (graphNodes (addNode g u)).Nodup := by
  rw [addNode]
  split
  · exact h
  · next hnone =>
    have hu : u ∉ graphNodes g :=
      lookupG_eq_none.mp (Option.not_isSome_iff_eq_none.mp hnone)
    rw [graphNodes, List.map_append]
    simp only [List.map_cons, List.map_nil]
    rw [List.nodup_append]
    refine ⟨h, List.nodup_singleton u, ?_⟩
    intro a ha hau
    rw [List.mem_singleton] at hau
    subst hau
    exact hu ha

theorem nodes_nodup_addEdge {g : WordGraph} (h : (graphNodes g).Nodup) (a b : String) :
    (graphNodes (addEdge g a b)).Nodup := by
  rw [addEdge, graphNodes_addNbr, graphNodes_addNbr]
  exact nodes_nodup_addNode (nodes_nodup_addNode h a) b

theorem adj_nodup_addNode {g : WordGraph} (h : ∀ p ∈ g, (p.2 : List String).Nodup)
    (u : String) : ∀ p ∈ addNode g u, (p.2 : List String).Nodup := by
  rw [addNode]
  split
  · exact h
  · intro p hp
    rw [List.mem_append] at hp
    rcases hp with hp | hp
    · exact h p hp
    · simp only [List.mem_singleton] at hp
      subst hp
      exact List.nodup_nil

theorem adj_nodup_addNbr {g : WordGraph} (h : ∀ p ∈ g, (p.2 : List String).Nodup)
    (u v : String) : ∀ p ∈ addNbr g u v, (p.2 : List String).Nodup := by
  intro p hp
  rw [addNbr, List.mem_map] at hp
  obtain ⟨q, hq, rfl⟩ := hp
  by_cases hqu : q.1 = u
  · rw [if_pos hqu]
    dsimp only
    split
    · exact h q hq
    · next hv =>
      refine (h q hq).append (List.nodup_singleton v) ?_
      intro a ha hav
      rw [List.mem_singleton] at hav
      subst hav
      exact hv ha
  · rw [if_neg hqu]
    exact h q hq

theorem adj_nodup_addEdge {g : WordGraph} (h : ∀ p ∈ g, (p.2 : List String).Nodup)
    (a b : String) : ∀ p ∈ addEdge g a b, (p.2 : List String).Nodup := by
  rw [addEdge]
  exact adj_nodup_addNbr (adj_nodup_addNbr (adj_nodup_addNode (adj_nodup_addNode h a) b) a b) b a

theorem nodes_nodup_addEdges {g : WordGraph} (h : (graphNodes g).Nodup)
    (ps : List (String × String)) : (graphNodes (addEdges g ps)).Nodup := by
  induction ps generalizing g with
  | nil => exact h
  | cons p rest ih => exact ih (nodes_nodup_addEdge h p.1 p.2)

theorem adj_nodup_addEdges {g : WordGraph} (h : ∀ p ∈ g, (p.2 : List String).Nodup)
    (ps : List (String × String)) : ∀ p ∈ addEdges g ps, (p.2 : List String).Nodup := by
  induction ps generalizing g with
  | nil => exact h
  | cons p rest ih => exact ih (adj_nodup_addEdge h p.1 p.2)

theorem nodes_nodup_getSyngraph (cs : List (List String)) :
    (graphNodes (getSyngraph cs)).Nodup := by
  rw [getSyngraph]
  suffices hgen : ∀ (g : WordGraph), (graphNodes g).Nodup →
      (graphNodes (cs.foldl addCluster g)).Nodup from hgen [] List.nodup_nil
  induction cs with
  | nil => intro g hg; exact hg
  | cons c rest ih =>
    intro g hg
    rw [List.foldl_cons]
    refine ih _ ?_
    rw [addCluster]
    split
    · exact nodes_nodup_addEdges hg _
    · exact hg

theorem adj_nodup_getSyngraph (cs : List (List String)) :
    ∀ p ∈ getSyngraph cs, (p.2 : List String).Nodup := by
  rw [getSyngraph]
  suffices hgen : ∀ (g : WordGraph), (∀ p ∈ g, (p.2 : List String).Nodup) →
      ∀ p ∈ cs.foldl addCluster g, (p.2 : List String).Nodup from
    hgen [] (by intro p hp; exact absurd hp (List.not_mem_nil p))
  induction cs with
  | nil => intro g hg; exact hg
  | cons c rest ih =>
    intro g hg
    rw [List.foldl_cons]
    refine ih _ ?_
    rw [addCluster]
    split
    · exact adj_nodup_addEdges hg _
    · exact hg

/-! ### The edge iterator on graphs with those invariants -/

theorem edgesAux_mem : ∀ (g : WordGraph) (seen : List String) (p : String × String),
    p ∈ edgesAux g seen → p.1 ∈ graphNodes g ∧ p.2 ∉ seen := by
  intro g
  induction g with
  | nil =>
    intro seen p hp
    simp [edgesAux] at hp
  | cons q rest ih =>
    obtain ⟨n, nbrs⟩ := q
    intro seen p hp
    rw [edgesAux, List.mem_append] at hp
    rcases hp with hp | hp
    · rw [List.mem_map] at hp
      obtain ⟨x, hx, rfl⟩ := hp
      rw [List.mem_filter, decide_eq_true_eq] at hx
      exact ⟨by rw [graphNodes, List.map_cons]; exact List.mem_cons_self _ _, hx.2⟩
    · obtain ⟨h1, h2⟩ := ih (n :: seen) p hp
      refine ⟨?_, fun hs => h2 (List.mem_cons_of_mem _ hs)⟩
      rw [graphNodes, List.map_cons, List.mem_cons]
      exact Or.inr h1

theorem edgesAux_nodup : ∀ (g : WordGraph) (seen : List String),
    (graphNodes g).Nodup → (∀ p ∈ g, (p.2 : List String).Nodup) →
    (edgesAux g seen).Nodup := by
  intro g
  induction g with
  | nil => intro seen _ _; exact List.nodup_nil
  | cons q rest ih =>
    obtain ⟨n, nbrs⟩ := q
    intro seen hnodes hadj
    rw [graphNodes, List.map_cons, List.nodup_cons] at hnodes
    rw [edgesAux, List.nodup_append]
    refine ⟨?_, ih (n :: seen) hnodes.2 (fun p hp => hadj p (List.mem_cons_of_mem _ hp)), ?_⟩
    · refine List.Nodup.map ?_ ((hadj (n, nbrs) (List.mem_cons_self _ _)).filter _)
      intro a b hab
      injection hab
    · intro p hp hp'
      rw [List.mem_map] at hp
      obtain ⟨x, _, rfl⟩ := hp
      exact hnodes.1 (edgesAux_mem rest (n :: seen) _ hp').1

theorem edgesAux_asym : ∀ (g : WordGraph) (seen : List String) (u v : String), u ≠ v →
    (u, v) ∈ edgesAux g seen → (v, u) ∈ edgesAux g seen → False := by
  intro g
  induction g with
  | nil =>
    intro seen u v _ h1 _
    simp [edgesAux] at h1
  | cons q rest ih =>
    obtain ⟨n, nbrs⟩ := q
    intro seen u v huv h1 h2
    rw [edgesAux, List.mem_append] at h1 h2
    rcases h1 with h1 | h1 <;> rcases h2 with h2 | h2
    · rw [List.mem_map] at h1 h2
      obtain ⟨x, _, hx⟩ := h1
      obtain ⟨y, _, hy⟩ := h2
      injection hx with hx1 hx2
      injection hy with hy1 hy2
      exact huv (hx1.symm.trans hy1)
    · rw [List.mem_map] at h1
      obtain ⟨x, _, hx⟩ := h1
      injection hx with hx1 hx2
      exact (edgesAux_mem rest (n :: seen) _ h2).2 (hx1 ▸ List.mem_cons_self n seen)
    · rw [List.mem_map] at h2
      obtain ⟨y, _, hy⟩ := h2
      injection hy with hy1 hy2
      exact (edgesAux_mem rest (n :: seen) _ h1).2 (hy1 ▸ List.mem_cons_self n seen)
    · exact ih (n :: seen) u v huv h1 h2

theorem graphEdges_nodup (cs : List (List String)) :
    (graphEdges (getSyngraph cs)).Nodup :=
  edgesAux_nodup _ [] (nodes_nodup_getSyngraph cs) (adj_nodup_getSyngraph cs)

theorem graphEdges_asym (cs : List (List String)) {u v : String} (h : u ≠ v)
    (h1 : (u, v) ∈ graphEdges (getSyngraph cs)) :
    (v, u) ∉ graphEdges (getSyngraph cs) :=
  fun h2 => edgesAux_asym _ [] u v h h1 h2

/-! ### Claim C8 -/

/-- Claim C8: for every graph the builder produces, the splitter partitions
the edge list exactly — train and test edges concatenate back to the full
edge list, no edge is in both splits, and no edge occurs under both
orientations in the edge list, so each undirected edge is assigned to
exactly one split. -/
theorem C8_split_partition (cs : List (List String)) (ratio m : ℚ) :
    trainEdgesOf (getSyngraph cs) ratio m ++ testEdgesOf (getSyngraph cs) ratio m =
      graphEdges (getSyngraph cs) ∧
    (∀ e, ¬ (e ∈ trainEdgesOf (getSyngraph cs) ratio m ∧
      e ∈ testEdgesOf (getSyngraph cs) ratio m)) ∧
    (∀ u v, u ≠ v → (u, v) ∈ graphEdges (getSyngraph cs) →
      (v, u) ∉ graphEdges (getSyngraph cs)) := by
  obtain ⟨j, hj, heq, _, _⟩ :=
    routeEdges_spec (train_len (getSyngraph cs) ratio) m (graphEdges (getSyngraph cs)) [] []
  have hte : trainEdgesOf (getSyngraph cs) ratio m = (graphEdges (getSyngraph cs)).take j := by
    rw [trainEdgesOf, splitOf, heq]
  have hse : testEdgesOf (getSyngraph cs) ratio m = (graphEdges (getSyngraph cs)).drop j := by
    rw [testEdgesOf, splitOf, heq]
  refine ⟨?_, ?_, ?_⟩
  · rw [hte, hse]
    exact List.take_append_drop j _
  · rintro e ⟨h1, h2⟩
    rw [hte] at h1
    rw [hse] at h2
    exact List.disjoint_take_drop (graphEdges_nodup cs) (Nat.le_refl j) h1 h2
  · intro u v huv h1
    exact graphEdges_asym cs huv h1

/-! ### Pointwise description of the graph-building primitives -/

theorem lookupG_append (g1 g2 : WordGraph) (w : String) :
    lookupG (g1 ++ g2) w =
      match lookupG g1 w with
      | some l => some l
      | none => lookupG g2 w := by
  induction g1 with
  | nil => rfl
  | cons p rest ih =>
    obtain ⟨k, l⟩ := p
    by_cases h : k = w <;> simp [lookupG, h, ih]

theorem lookupG_addNbr (g : WordGraph) (u v w : String) :
    lookupG (addNbr g u v) w =
      (lookupG g w).map fun l => if w = u then (if v ∈ l then l else l ++ [v]) else l := by
  induction g with
  | nil => rfl
  | cons p rest ih =>
    obtain ⟨k, l⟩ := p
    have hstep : addNbr ((k, l) :: rest) u v =
        (if k = u then (k, if v ∈ l then l else l ++ [v]) else (k, l)) :: addNbr rest u v := rfl
    rw [hstep]
    by_cases hku : k = u
    · subst hku
      rw [if_pos rfl]
      by_cases hkw : k = w
      · subst hkw
        rw [lookupG, if_pos rfl, lookupG, if_pos rfl, Option.map_some', if_pos rfl]
      · rw [lookupG, if_neg hkw, lookupG, if_neg hkw, ih]
    · rw [if_neg hku]
      by_cases hkw : k = w
      · subst hkw
        rw [lookupG, if_pos rfl, lookupG, if_pos rfl, Option.map_some', if_neg hku]
      · rw [lookupG, if_neg hkw, lookupG, if_neg hkw, ih]

theorem isSome_lookupG_addNbr (g : WordGraph) (u v w : String) :
    (lookupG (addNbr g u v) w).isSome = (lookupG g w).isSome := by
  rw [lookupG_addNbr]
  cases lookupG g w <;> rfl

theorem lookupG_addNode (g : WordGraph) (u w : String) :
    lookupG (addNode g u) w =
      match lookupG g w with
      | some l => some l
      | none => if w = u then some [] else none := by
  cases hl : lookupG g w with
  | some l =>
    show lookupG (addNode g u) w = some l
    rw [addNode]
    split
    · exact hl
    · rw [lookupG_append, hl]
  | none =>
    show lookupG (addNode g u) w = if w = u then some [] else none
    rw [addNode]
    split
    · next hs =>
      rw [hl]
      by_cases hwu : w = u
      · subst hwu
        rw [hl] at hs
        exact absurd hs (by simp)
      · rw [if_neg hwu]
    · rw [lookupG_append, hl]
      show lookupG [(u, [])] w = if w = u then some [] else none
      by_cases hwu : w = u
      · subst hwu
        rw [lookupG, if_pos rfl, if_pos rfl]
      · rw [lookupG, if_neg (fun h => hwu h.symm), if_neg hwu, lookupG]

theorem neighbors_addNode (g : WordGraph) (u w : String) :
    neighbors (addNode g u) w = neighbors g w := by
  rw [neighbors, neighbors, lookupG_addNode]
  cases hl : lookupG g w with
  | some l => rfl
  | none =>
    by_cases hwu : w = u <;> simp [hwu]

theorem isSome_lookupG_addNode (g : WordGraph) (u w : String) :
    (lookupG (addNode g u) w).isSome = ((lookupG g w).isSome || decide (w = u)) := by
  rw [lookupG_addNode]
  cases hl : lookupG g w with
  | some l => rfl
  | none =>
    by_cases hwu : w = u <;> simp [hwu]

theorem mem_neighbors_addNbr {g : WordGraph} {u v w z : String} :
    z ∈ neighbors (addNbr g u v) w ↔
      z ∈ neighbors g w ∨ (w = u ∧ z = v ∧ (lookupG g u).isSome = true) := by
  rw [neighbors, neighbors, lookupG_addNbr]
  cases hl : lookupG g w with
  | none =>
    simp only [Option.map_none', Option.getD_none, List.not_mem_nil, false_or, false_iff]
    rintro ⟨rfl, _, hs⟩
    rw [hl] at hs
    exact absurd hs (by simp)
  | some l =>
    rw [Option.map_some', Option.getD_some, Option.getD_some]
    by_cases hwu : w = u
    · subst hwu
      rw [if_pos rfl, hl]
      simp only [Option.isSome_some, and_true, true_and]
      by_cases hv : v ∈ l
      · rw [if_pos hv]
        constructor
        · exact fun h => Or.inl h
        · rintro (h | rfl)
          · exact h
          · exact hv
      · rw [if_neg hv, List.mem_append, List.mem_singleton]
    · rw [if_neg hwu]
      simp [hwu]

theorem mem_neighbors_addEdge {g : WordGraph} {a b u z : String} :
    z ∈ neighbors (addEdge g a b) u ↔
      z ∈ neighbors g u ∨ (u = a ∧ z = b) ∨ (u = b ∧ z = a) := by
  rw [addEdge]
  have h0 : ∀ w, neighbors (addNode (addNode g a) b) w = neighbors g w := fun w => by
    rw [neighbors_addNode, neighbors_addNode]
  have ha : (lookupG (addNode (addNode g a) b) a).isSome = true := by
    rw [isSome_lookupG_addNode, isSome_lookupG_addNode]
    simp
  have hb : (lookupG (addNbr (addNode (addNode g a) b) a b) b).isSome = true := by
    rw [isSome_lookupG_addNbr, isSome_lookupG_addNode]
    simp
  rw [mem_neighbors_addNbr, mem_neighbors_addNbr, h0, ha, hb]
  simp only [and_true]
  tauto

theorem mem_graphNodes_iff {g : WordGraph} {u : String} :
    u ∈ graphNodes g ↔ (lookupG g u).isSome = true := by
  rw [← Option.ne_none_iff_isSome]
  constructor
  · intro h hn
    exact lookupG_eq_none.mp hn h
  · intro h
    by_contra hn
    exact h (lookupG_eq_none.mpr hn)

theorem mem_graphNodes_addEdge {g : WordGraph} {a b u : String} :
    u ∈ graphNodes (addEdge g a b) ↔ u ∈ graphNodes g ∨ u = a ∨ u = b := by
  rw [mem_graphNodes_iff, addEdge, isSome_lookupG_addNbr, isSome_lookupG_addNbr,
    isSome_lookupG_addNode, isSome_lookupG_addNode]
  simp only [Bool.or_eq_true, decide_eq_true_eq, or_assoc, ← mem_graphNodes_iff]

theorem mem_neighbors_addEdges {ps : List (String × String)} :
    ∀ {g : WordGraph} {u z : String},
      z ∈ neighbors (addEdges g ps) u ↔
        z ∈ neighbors g u ∨ (u, z) ∈ ps ∨ (z, u) ∈ ps := by
  induction ps with
  | nil =>
    intro g u z
    simp [addEdges]
  | cons p rest ih =>
    intro g u z
    obtain ⟨a, b⟩ := p
    rw [show addEdges g ((a, b) :: rest) = addEdges (addEdge g a b) rest from rfl, ih,
      mem_neighbors_addEdge]
    simp only [List.mem_cons, Prod.mk.injEq]
    tauto

theorem mem_graphNodes_addEdges {ps : List (String × String)} :
    ∀ {g : WordGraph} {u : String},
      u ∈ graphNodes (addEdges g ps) ↔
        u ∈ graphNodes g ∨ ∃ p ∈ ps, u = p.1 ∨ u = p.2 := by
  induction ps with
  | nil =>
    intro g u
    simp [addEdges]
  | cons p rest ih =>
    intro g u
    obtain ⟨a, b⟩ := p
    rw [show addEdges g ((a, b) :: rest) = addEdges (addEdge g a b) rest from rfl, ih,
      mem_graphNodes_addEdge]
    simp only [List.mem_cons, exists_eq_or_imp]
    itauto

theorem addCluster_eq (g : WordGraph) (c : List String) :
    addCluster g c =
      if 1 < (c.filter _is_single_word).length then
        addEdges g (combinations2 (c.filter _is_single_word))
      else g := rfl

theorem mem_neighbors_getSyngraph {cs : List (List String)} {u z : String} :
    z ∈ neighbors (getSyngraph cs) u ↔
      ∃ c ∈ cs, 1 < (c.filter _is_single_word).length ∧
        ((u, z) ∈ combinations2 (c.filter _is_single_word) ∨
          (z, u) ∈ combinations2 (c.filter _is_single_word)) := by
  have hgen : ∀ (g : WordGraph),
      z ∈ neighbors (cs.foldl addCluster g) u ↔
        z ∈ neighbors g u ∨ ∃ c ∈ cs, 1 < (c.filter _is_single_word).length ∧
          ((u, z) ∈ combinations2 (c.filter _is_single_word) ∨
            (z, u) ∈ combinations2 (c.filter _is_single_word)) := by
    induction cs with
    | nil =>
      intro g
      simp
    | cons c rest ih =>
      intro g
      rw [List.foldl_cons, ih, addCluster_eq]
      simp only [List.mem_cons, exists_eq_or_imp]
      by_cases hc : 1 < (c.filter _is_single_word).length
      · rw [if_pos hc, mem_neighbors_addEdges]
        itauto
      · rw [if_neg hc]
        itauto
  rw [getSyngraph]
  have hnil : neighbors ([] : WordGraph) u = [] := rfl
  rw [hgen, hnil]
  simp

theorem mem_graphNodes_getSyngraph {cs : List (List String)} {u : String} :
    u ∈ graphNodes (getSyngraph cs) ↔
      ∃ c ∈ cs, 1 < (c.filter _is_single_word).length ∧
        ∃ p ∈ combinations2 (c.filter _is_single_word), u = p.1 ∨ u = p.2 := by
  have hgen : ∀ (g : WordGraph),
      u ∈ graphNodes (cs.foldl addCluster g) ↔
        u ∈ graphNodes g ∨ ∃ c ∈ cs, 1 < (c.filter _is_single_word).length ∧
          ∃ p ∈ combinations2 (c.filter _is_single_word), u = p.1 ∨ u = p.2 := by
    induction cs with
    | nil =>
      intro g
      simp
    | cons c rest ih =>
      intro g
      rw [List.foldl_cons, ih, addCluster_eq]
      simp only [List.mem_cons, exists_eq_or_imp]
      by_cases hc : 1 < (c.filter _is_single_word).length
      · rw [if_pos hc, mem_graphNodes_addEdges]
        itauto
      · rw [if_neg hc]
        itauto
  rw [getSyngraph, hgen]
  simp [graphNodes]

/-! ### Properties of `combinations` over a duplicate-free form list -/

theorem mem_combinations2_sub : ∀ {l : List String} {p : String × String},
    p ∈ combinations2 l → p.1 ∈ l ∧ p.2 ∈ l := by
  intro l
  induction l with
  | nil =>
    intro p hp
    simp [combinations2] at hp
  | cons x xs ih =>
    intro p hp
    rw [combinations2, List.mem_append] at hp
    rcases hp with hp | hp
    · rw [List.mem_map] at hp
      obtain ⟨y, hy, rfl⟩ := hp
      exact ⟨List.mem_cons_self _ _, List.mem_cons_of_mem _ hy⟩
    · obtain ⟨h1, h2⟩ := ih hp
      exact ⟨List.mem_cons_of_mem _ h1, List.mem_cons_of_mem _ h2⟩

theorem mem_combinations2_ne : ∀ {l : List String}, l.Nodup →
    ∀ {u v : String}, (u, v) ∈ combinations2 l → u ≠ v := by
  intro l
  induction l with
  | nil =>
    intro _ u v h
    simp [combinations2] at h
  | cons x xs ih =>
    intro hnd u v h
    rw [List.nodup_cons] at hnd
    rw [combinations2, List.mem_append] at h
    rcases h with h | h
    · rw [List.mem_map] at h
      obtain ⟨y, hy, heq⟩ := h
      injection heq with h1 h2
      subst h1
      subst h2
      intro huv
      exact hnd.1 (huv ▸ hy)
    · exact ih hnd.2 h

theorem combinations2_total : ∀ {l : List String} {u v : String},
    u ∈ l → v ∈ l → u ≠ v →
    (u, v) ∈ combinations2 l ∨ (v, u) ∈ combinations2 l := by
  intro l
  induction l with
  | nil =>
    intro u v h
    simp at h
  | cons x xs ih =>
    intro u v hu hv huv
    rw [List.mem_cons] at hu hv
    rcases hu with rfl | hu
    · rcases hv with rfl | hv
      · exact absurd rfl huv
      · left
        rw [combinations2, List.mem_append, List.mem_map]
        exact Or.inl ⟨v, hv, rfl⟩
    · rcases hv with rfl | hv
      · right
        rw [combinations2, List.mem_append, List.mem_map]
        exact Or.inl ⟨u, hu, rfl⟩
      · rcases ih hu hv huv with h | h
        · left
          rw [combinations2, List.mem_append]
          exact Or.inr h
        · right
          rw [combinations2, List.mem_append]
          exact Or.inr h

theorem combinations2_cover {l : List String} {u : String}
    (hlen : 1 < l.length) (hu : u ∈ l) :
    ∃ p ∈ combinations2 l, u = p.1 ∨ u = p.2 := by
  cases l with
  | nil => simp at hu
  | cons x xs =>
    cases xs with
    | nil => simp at hlen
    | cons y ys =>
      rw [List.mem_cons] at hu
      rcases hu with rfl | hu
      · refine ⟨(u, y), ?_, Or.inl rfl⟩
        rw [combinations2, List.mem_append, List.mem_map]
        exact Or.inl ⟨y, List.mem_cons_self _ _, rfl⟩
      · refine ⟨(x, u), ?_, Or.inr rfl⟩
        rw [combinations2, List.mem_append, List.mem_map]
        exact Or.inl ⟨u, hu, rfl⟩

theorem length_lt_of_two_mem {l : List String} {u v : String}
    (hu : u ∈ l) (hv : v ∈ l) (huv : u ≠ v) : 1 < l.length := by
  cases l with
  | nil => simp at hu
  | cons x xs =>
    cases xs with
    | nil =>
      rw [List.mem_singleton] at hu hv
      exact absurd (hu.trans hv.symm) huv
    | cons y ys =>
      simp only [List.length_cons]
      omega

theorem neighbors_nodup_getSyngraph (cs : List (List String)) (u : String) :
    (neighbors (getSyngraph cs) u).Nodup := by
  rw [neighbors]
  cases hl : lookupG (getSyngraph cs) u with
  | none => exact List.nodup_nil
  | some l =>
    rw [Option.getD_some]
    exact adj_nodup_getSyngraph cs (u, l) (lookupG_mem hl)

/-! ### Claim C5, amended part -/

/-- Claim C5 (amended): for every input cluster list whose clusters are
duplicate-free (a SenseCluster is an unordered collection of distinct word
forms; a repeated form would make `combinations` emit a self-loop, see the
counterexample), the builder's graph joins `u` and `z` exactly when they are
distinct and co-occur in some cluster after the single-word filter; it has
no self-loops, symmetric adjacency, no parallel edges (duplicate-free
adjacency lists); its vertices are exactly the filtered members of clusters
with at least two surviving forms; and on the synthetic cluster
`{a, b, c}` exactly the 3 clique edges are added. -/
theorem C5_graph_builder (cs : List (List String)) (hnd : ∀ c ∈ cs, c.Nodup) :
    (∀ u z, z ∈ neighbors (getSyngraph cs) u ↔
      (u ≠ z ∧ ∃ c ∈ cs, u ∈ c.filter _is_single_word ∧ z ∈ c.filter _is_single_word)) ∧
    (∀ u, u ∉ neighbors (getSyngraph cs) u) ∧
    (∀ u z, z ∈ neighbors (getSyngraph cs) u ↔ u ∈ neighbors (getSyngraph cs) z) ∧
    (∀ u, (neighbors (getSyngraph cs) u).Nodup) ∧
    (∀ u, u ∈ graphNodes (getSyngraph cs) ↔
      ∃ c ∈ cs, u ∈ c.filter _is_single_word ∧ 1 < (c.filter _is_single_word).length) ∧
    graphEdges (getSyngraph [["a", "b", "c"]]) = [("a", "b"), ("a", "c"), ("b", "c")] := by
  have hchar : ∀ u z, z ∈ neighbors (getSyngraph cs) u ↔
      (u ≠ z ∧ ∃ c ∈ cs, u ∈ c.filter _is_single_word ∧ z ∈ c.filter _is_single_word) := by
    intro u z
    rw [mem_neighbors_getSyngraph]
    constructor
    · rintro ⟨c, hc, hlen, hmem | hmem⟩
      · have hsub := mem_combinations2_sub hmem
        exact ⟨mem_combinations2_ne ((hnd c hc).filter _) hmem, c, hc, hsub.1, hsub.2⟩
      · have hsub := mem_combinations2_sub hmem
        exact ⟨(mem_combinations2_ne ((hnd c hc).filter _) hmem).symm, c, hc, hsub.2, hsub.1⟩
    · rintro ⟨hne, c, hc, hu, hz⟩
      exact ⟨c, hc, length_lt_of_two_mem hu hz hne, combinations2_total hu hz hne⟩
  refine ⟨hchar, ?_, ?_, neighbors_nodup_getSyngraph cs, ?_, by decide⟩
  · intro u hu
    exact ((hchar u u).mp hu).1 rfl
  · intro u z
    rw [hchar u z, hchar z u]
    constructor
    · rintro ⟨hne, c, hc, h1, h2⟩
      exact ⟨hne.symm, c, hc, h2, h1⟩
    · rintro ⟨hne, c, hc, h1, h2⟩
      exact ⟨hne.symm, c, hc, h2, h1⟩
  · intro u
    rw [mem_graphNodes_getSyngraph]
    constructor
    · rintro ⟨c, hc, hlen, p, hp, hup⟩
      have hsub := mem_combinations2_sub hp
      rcases hup with rfl | rfl
      · exact ⟨c, hc, hsub.1, hlen⟩
      · exact ⟨c, hc, hsub.2, hlen⟩
    · rintro ⟨c, hc, hu, hlen⟩
      exact ⟨c, hc, hlen, combinations2_cover hlen hu⟩

/-- Witness for claim C5 at the concrete cluster list `[[a, b, c]]`. -/
theorem C5_witness :
    graphEdges (getSyngraph [["a", "b", "c"]]) = [("a", "b"), ("a", "c"), ("b", "c")] ∧
    ("a" : String) ∉ neighbors (getSyngraph [["a", "b", "c"]]) "a" :=
  ⟨(C5_graph_builder [["a", "b", "c"]] (by decide)).2.2.2.2.2,
   (C5_graph_builder [["a", "b", "c"]] (by decide)).2.1 "a"⟩
